import Mathlib

/-!
# Verification of the content-indexing and hybrid-retrieval engine

A shallow embedding of the core algorithms of the backend:

* `src/ingestion/chunker.py` — `SemanticChunker` (token-budget-aware
  splitting with heading stack and overlap);
* `src/services/retrieval.py` — `BM25` (from-scratch lexical scorer),
  `HybridRetriever.bm25_search` and
  `HybridRetriever.reciprocal_rank_fusion`;
* `src/services/embeddings.py` — `EmbeddingGenerator.generate_embeddings_batch`
  (cache-hit/miss index bookkeeping).

Python strings are modelled as lists of characters (`Text`).  Python
floats are modelled as exact rationals; the one transcendental operation
(`np.log` in the BM25 idf) is abstracted as an explicit function
parameter `lnq : ℚ → ℚ`, and theorems assume of it only properties that
hold for the real (and floating-point) logarithm, or state their
conclusion in terms of `Real.log`.  The sub-word tokenizer (`tiktoken`)
is likewise abstracted as an explicit `Tokenizer` parameter (an
`encode`/`decode` pair), since the chunker is generic over the encoding
name it is constructed with.
-/

/-- Python `str` modelled as a list of characters. -/
abbrev Text := List Char

/-- Python's whitespace class (`\s`, `str.split()`, `str.strip()`), ASCII
range: space, tab, newline, carriage return, vertical tab, form feed. -/
def isPyWS (c : Char) : Bool :=
  c = ' ' || c = '\t' || c = '\n' || c = '\r' || c = '\x0b' || c = '\x0c'

/-- Python `str.strip()`: remove leading and trailing whitespace. -/
def pyStrip (t : Text) : Text :=
  ((t.dropWhile isPyWS).reverse.dropWhile isPyWS).reverse

/-- Helper for `pySplitWS`: accumulates the current (reversed) word. -/
def splitWSAux (cur : Text) : Text → List Text
  | [] => if cur.isEmpty then [] else [cur.reverse]
  | c :: rest =>
    if isPyWS c then
      (if cur.isEmpty then [] else [cur.reverse]) ++ splitWSAux [] rest
    else
      splitWSAux (c :: cur) rest

/-- Python `str.split()` with no argument: split on whitespace runs,
discarding empty pieces. -/
def pySplitWS (t : Text) : List Text := splitWSAux [] t

namespace BM25

/-- A word character for the regex class `\w` (ASCII range):
letters, digits, underscore. -/
def isWordChar (c : Char) : Bool := c.isAlphanum || c = '_'

/-- `BM25.tokenize`: lowercase, replace every character matching
`[^\w\s]` (neither word character nor whitespace) by a space, then split
on whitespace. -/
def tokenize (t : Text) : List Text :=
  pySplitWS ((t.map Char.toLower).map
    (fun c => if !(isWordChar c) && !(isPyWS c) then ' ' else c))

/-- Document frequency as built by `score_documents`: `df[token]` is
incremented once per *occurrence* of `token` in the query token list and
per document containing it, i.e. `df[t] = (count of t in query_tokens) *
(number of documents containing t)`.  We compute, for a single document's
token list, the increment contributed to `df[term]`. -/
def dfOfTerm (queryTokens : List Text) (docsToks : List (List Text)) (term : Text) : Nat :=
  (docsToks.map (fun toks => if toks.contains term then queryTokens.count term else 0)).sum

/-- The idf of a term, `ln((N - df + 0.5) / (df + 0.5) + 1)`, with the
logarithm abstracted as `lnq`.  Subtraction is exact (rational), as in
Python's int/float arithmetic. -/
def idfOf (lnq : ℚ → ℚ) (numDocs df : Nat) : ℚ :=
  lnq (((numDocs : ℚ) - (df : ℚ) + 1/2) / ((df : ℚ) + 1/2) + 1)

/-- One query-term contribution to a document's BM25 score:
`idf * tf * (k1+1) / (tf + k1 * (1 - b + b * dl / avgdl))`, added only
when the term occurs in the document (`tf > 0`). -/
def termScore (k1 b idf : ℚ) (tf : Nat) (docLen : ℚ) (avgLen : ℚ) : ℚ :=
  idf * (tf : ℚ) * (k1 + 1) / ((tf : ℚ) + k1 * (1 - b + b * (docLen / avgLen)))

/-- A Python `dict` with `Nat` keys, as an association list in key
insertion order; setting an existing key updates it in place. -/
def pyDictSet (d : List (Nat × α)) (k : Nat) (v : α) : List (Nat × α) :=
  if d.any (fun p => p.1 = k) then
    d.map (fun p => if p.1 = k then (k, v) else p)
  else d ++ [(k, v)]

/-- Build a dict from a list of (key, value) pairs, later pairs winning
(`{doc_id: len(tokens) for doc_id, tokens in doc_tokens}`). -/
def pyDictOfList (l : List (Nat × α)) : List (Nat × α) :=
  l.foldl (fun d p => pyDictSet d p.1 p.2) []

/-- Dict lookup (the key is present whenever the code performs it). -/
def pyDictGet (d : List (Nat × ℚ)) (k : Nat) : ℚ :=
  ((d.find? (fun p => p.1 = k)).map Prod.snd).getD 0

/-- BM25 score of one document against the query tokens, given the
document's length `docLen` as read from the `doc_lengths` dict. -/
def docScore (lnq : ℚ → ℚ) (k1 b : ℚ) (queryTokens : List Text)
    (numDocs : Nat) (df : Text → Nat) (avgLen : ℚ) (docLen : ℚ)
    (toks : List Text) : ℚ :=
  (queryTokens.map (fun qt =>
    let tf := toks.count qt
    if tf ≠ 0 then
      termScore k1 b (idfOf lnq numDocs (df qt)) tf docLen avgLen
    else 0)).sum

/-- `BM25.score_documents`: guard the empty corpus, short-circuit an
empty tokenized query to all-zero scores in corpus order, otherwise score
every document and sort by score descending (stable, as Python's
`list.sort(..., reverse=True)`).  Document lengths go through the
`doc_lengths` dict keyed by doc id, exactly as in the source (so a
duplicated id reads the last duplicate's length, and the average divides
by the number of distinct ids). -/
def score_documents (lnq : ℚ → ℚ) (k1 b : ℚ) (query : Text)
    (documents : List (Nat × Text)) : List (Nat × ℚ) :=
  if documents.isEmpty then []
  else
    let queryTokens := tokenize query
    if queryTokens.isEmpty then documents.map (fun d => (d.1, (0 : ℚ)))
    else
      let docToks := documents.map (fun d => (d.1, tokenize d.2))
      let docLengths := pyDictOfList (docToks.map (fun d => (d.1, (d.2.length : ℚ))))
      let avgLen : ℚ := (docLengths.map Prod.snd).sum / (docLengths.length : ℚ)
      let df := dfOfTerm queryTokens (docToks.map Prod.snd)
      let scores := docToks.map (fun d =>
        (d.1, docScore lnq k1 b queryTokens documents.length df avgLen
          (pyDictGet docLengths d.1) d.2))
      scores.mergeSort (fun x y => y.2 ≤ x.2)

end BM25

/-- `RetrievedChunk` (`src/services/retrieval.py`): a retrieved chunk with
metadata and relevance score.  Chunk ids (`UUID` in the source) are
modelled as naturals; the payload dict behind `metadata` as an
association list.  The Python attribute `section` is a reserved word in
Lean and is rendered `section_name`. -/
structure RetrievedChunk where
  chunk_id : Nat
  content : Text
  score : ℚ
  chapter : Text
  section_name : Text
  page : Option Int
  url : Text
  metadata : List (Text × Text)
deriving DecidableEq, Repr

instance : Inhabited RetrievedChunk := ⟨⟨0, [], 0, [], [], none, [], []⟩⟩

/-- A point returned by the Qdrant scroll in `bm25_search`: id plus the
payload fields the code reads. -/
structure QdrantPoint where
  id : Nat
  content : Text
  chapter : Text
  section_name : Text
  page : Option Int
  url : Text
  metadata : List (Text × Text)
deriving DecidableEq, Repr

namespace HybridRetriever

/-- `point_map[chunk_id]`: dict built by one pass over `points`, so a
duplicated id maps to its last occurrence.  The lookup in the source
always succeeds (every scored id comes from the same `points`); the
`.getD` default is never reached then. -/
def pointMapGet (points : List QdrantPoint) (i : Nat) : QdrantPoint :=
  (points.reverse.find? (fun p => p.id = i)).getD ⟨0, [], [], [], none, [], []⟩

/-- `HybridRetriever.bm25_search`, from the point where the scroll has
produced `points`: empty-guard, score with BM25, walk the top
`top_k` scores skipping non-positive ones, and build `RetrievedChunk`s
from the point payloads. -/
def bm25_search (lnq : ℚ → ℚ) (k1 b : ℚ) (query : Text) (top_k : Nat)
    (points : List QdrantPoint) : List RetrievedChunk :=
  if points.isEmpty then []
  else
    let documents := points.map (fun p => (p.id, p.content))
    let bm25Scores := BM25.score_documents lnq k1 b query documents
    ((bm25Scores.take top_k).filter (fun s => 0 < s.2)).map (fun s =>
      let p := pointMapGet points s.1
      { chunk_id := s.1, content := p.content, score := s.2,
        chapter := p.chapter, section_name := p.section_name,
        page := p.page, url := p.url, metadata := p.metadata })

/-- The rank dict `{chunk.chunk_id: idx for idx, chunk in enumerate(l)}`:
a duplicated id gets the index of its last occurrence.  `start` is the
index of the head of the remaining list. -/
def rankFrom (start : Nat) : List RetrievedChunk → Nat → Option Nat
  | [], _ => none
  | c :: cs, i =>
    match rankFrom (start + 1) cs i with
    | some r => some r
    | none => if c.chunk_id = i then some start else none

/-- The RRF score of an id: one term `1/(k + rank)` per rank map
containing it. -/
def rrfScore (vres bres : List RetrievedChunk) (k : Nat) (i : Nat) : ℚ :=
  (match rankFrom 0 vres i with
   | some r => 1 / ((k : ℚ) + (r : ℚ))
   | none => 0) +
  (match rankFrom 0 bres i with
   | some r => 1 / ((k : ℚ) + (r : ℚ))
   | none => 0)

/-- `all_chunk_ids = set(vector_ranks) | set(bm25_ranks)`.  Python's set
iteration order is unspecified; we fix one concrete enumeration of the
union (`dedup` of the concatenation).  No claim below depends on the
choice: the enumeration only seeds the stable sort, and every ordering
fact proved compares distinct RRF scores. -/
def allChunkIds (vres bres : List RetrievedChunk) : List Nat :=
  (vres.map (fun c => c.chunk_id) ++ bres.map (fun c => c.chunk_id)).dedup

/-- `chunk_map`: filled from `vector_results` then overwritten from
`bm25_results`, so a shared id resolves to the BM25 chunk, and within one
list to its last occurrence. -/
def chunkMapGet (vres bres : List RetrievedChunk) (i : Nat) : RetrievedChunk :=
  match bres.reverse.find? (fun c => c.chunk_id = i) with
  | some c => c
  | none =>
    match vres.reverse.find? (fun c => c.chunk_id = i) with
    | some c => c
    | none => default

/-- `HybridRetriever.reciprocal_rank_fusion`, value-level view: compute
rank maps, RRF scores over the union of ids, sort ids by score descending
(stably, as Python's `sorted(..., reverse=True)`), and return the mapped
chunks with their `score` field replaced by the RRF value.  The
store-level view `rrfFusionStore` below additionally tracks which heap
objects are returned and mutated. -/
def reciprocal_rank_fusion (vres bres : List RetrievedChunk) (k : Nat) :
    List RetrievedChunk :=
  let ids := allChunkIds vres bres
  let sortedIds := ids.mergeSort
    (fun a b => rrfScore vres bres k b ≤ rrfScore vres bres k a)
  sortedIds.map (fun i =>
    { chunkMapGet vres bres i with score := rrfScore vres bres k i })

end HybridRetriever

/-- A heap of `RetrievedChunk` objects: Python object references become
indices into a store list.  `deref` of an out-of-range reference returns
`default`; theorems about the store-level fusion carry validity
hypotheses so that branch is never semantically relevant. -/
abbrev ChunkStore := List RetrievedChunk

/-- Read a reference. -/
def deref (store : ChunkStore) (r : Nat) : RetrievedChunk := store.getD r default

/-- All fields of a `RetrievedChunk` except `score`, for frame
statements. -/
def nonScore (c : RetrievedChunk) :
    Nat × Text × Text × Text × Option Int × Text × List (Text × Text) :=
  (c.chunk_id, c.content, c.chapter, c.section_name, c.page, c.url, c.metadata)

namespace HybridRetriever

/-- `chunk_map` at reference level: the id `i` resolves to the reference
of the last `bm25_results` object with that id, else the last
`vector_results` object (the Python dict is filled from
`vector_results` then overwritten from `bm25_results`).  The final
fallback is never reached for an id drawn from either list. -/
def chunkMapRef (store : ChunkStore) (vrefs brefs : List Nat) (i : Nat) : Nat :=
  match brefs.reverse.find? (fun r => (deref store r).chunk_id = i) with
  | some r => r
  | none =>
    match vrefs.reverse.find? (fun r => (deref store r).chunk_id = i) with
    | some r => r
    | none => 0

/-- One iteration of the final loop of `reciprocal_rank_fusion` at store
level: `chunk = chunk_map[chunk_id]; chunk.score = rrf_scores[chunk_id]`
becomes an in-place update of the resolved reference (the rank maps and
RRF scores were computed up front from the pre-call store). -/
def rrfWriteStep (store : ChunkStore) (vrefs brefs : List Nat) (k : Nat)
    (st : ChunkStore) (i : Nat) : ChunkStore :=
  let r := chunkMapRef store vrefs brefs i
  st.set r { deref st r with
    score := rrfScore (vrefs.map (deref store)) (brefs.map (deref store)) k i }

/-- `reciprocal_rank_fusion`, store-level view: identical control flow to
the value-level view, but the input lists are object references and the
final loop mutates the store via `rrfWriteStep`.  Returns the fused
reference list and the post-call store. -/
def rrfFusionStore (store : ChunkStore) (vrefs brefs : List Nat) (k : Nat) :
    List Nat × ChunkStore :=
  let vres := vrefs.map (deref store)
  let bres := brefs.map (deref store)
  let ids := allChunkIds vres bres
  let sortedIds := ids.mergeSort
    (fun a b => rrfScore vres bres k b ≤ rrfScore vres bres k a)
  let outRefs := sortedIds.map (chunkMapRef store vrefs brefs)
  let finalStore := sortedIds.foldl (rrfWriteStep store vrefs brefs k) store
  (outRefs, finalStore)

end HybridRetriever

/-- The sub-word tokenizer (`tiktoken` encoding) abstracted as an
encode/decode pair; the chunker is generic over the encoding it is
constructed with, and no algebraic law relating `encode` and `decode` is
assumed anywhere. -/
structure Tokenizer where
  encode : Text → List Nat
  decode : List Nat → Text

/-- The character-level instance used for concrete runs: each character
is one token. -/
def charTok : Tokenizer :=
  { encode := fun t => t.map Char.toNat
  , decode := fun l => l.map Char.ofNat }

/-- The configuration stored by `SemanticChunker.__init__`. -/
structure ChunkerConfig where
  min_chunk_size : Nat
  max_chunk_size : Nat
  overlap_size : Nat
deriving DecidableEq, Repr

/-- Error kind named by the spec for invalid chunker bounds. -/
inductive ConfigurationError where
  | invalidBounds
deriving DecidableEq, Repr

/-- `SemanticChunker.__init__`: stores the three sizes.  The source
performs no validation of the bounds whatsoever (the only `try` guards
the tokenizer lookup, which falls back to a default encoding), so
construction succeeds for every argument triple. -/
def SemanticChunker.mk' (min_chunk_size max_chunk_size overlap_size : Nat) :
    Except ConfigurationError ChunkerConfig :=
  Except.ok ⟨min_chunk_size, max_chunk_size, overlap_size⟩

/-- `Section` from `src/ingestion/parser.py`: heading, level, body text,
line span (code blocks are not consulted by the chunker). -/
structure Section where
  heading : Text
  level : Nat
  content : Text
  line_start : Int
  line_end : Int
deriving DecidableEq, Repr

/-- `ParsedDocument` from `src/ingestion/parser.py`, restricted to the
fields the chunker reads. -/
structure ParsedDocument where
  file_path : Text
  sections : List Section
  title : Text
  chapter : Text
  description : Text
  keywords : List Text
  url_path : Text
deriving DecidableEq, Repr

/-- `ContentChunk`: the metadata dict of the source carries
`chunk_index`; we surface that field directly alongside the dataclass
fields the claims mention. -/
structure ContentChunk where
  text : Text
  token_count : Nat
  heading_path : List Text
  chunk_index : Nat
  source_file : Text
  line_start : Int
  line_end : Int
deriving DecidableEq, Repr

namespace SemanticChunker

/-- `count_tokens`: length of the encoding. -/
def count_tokens (T : Tokenizer) (t : Text) : Nat := (T.encode t).length

/-- `_create_chunk`: recompute the token count on the given text and
snapshot the heading path. -/
def create_chunk (T : Tokenizer) (document : ParsedDocument) (s : Section)
    (heading_path : List Text) (text : Text) (chunk_index : Nat) : ContentChunk :=
  { text := text
  , token_count := count_tokens T text
  , heading_path := heading_path
  , chunk_index := chunk_index
  , source_file := document.file_path
  , line_start := s.line_start
  , line_end := s.line_end }

/-- Helper for `_split_into_paragraphs`.  `re.split(r'\n\s*\n', text)`
splits at each maximal whitespace run containing at least two newlines
(the greedy `\s*` stretches a match from the run's first newline to its
last newline; whitespace of the run outside the match stays on the
pieces and is removed by the subsequent `strip`).  Since every piece is
then stripped and empty pieces are discarded, splitting at the full
whitespace runs is observationally identical; this helper does that,
accumulating the current piece in reverse. -/
def splitParasAux (cur run : Text) : Text → List Text
  | [] =>
    if 2 ≤ run.count '\n' then [cur.reverse, []]
    else [(run ++ cur).reverse]
  | c :: rest =>
    if isPyWS c then
      splitParasAux cur (c :: run) rest
    else if 2 ≤ run.count '\n' then
      cur.reverse :: splitParasAux [c] [] rest
    else
      splitParasAux (c :: (run ++ cur)) [] rest

/-- `_split_into_paragraphs`: split on blank-line boundaries, strip each
paragraph, drop empties. -/
def split_into_paragraphs (t : Text) : List Text :=
  ((splitParasAux [] [] t).map pyStrip).filter (fun p => !p.isEmpty)

/-- `_get_overlap_text`: the decoded last `overlap_size` tokens of the
text, or the text itself when it has at most that many tokens.  Python's
`tokens[-overlap_size:]` with `overlap_size = 0` is the whole list, hence
the explicit zero case. -/
def get_overlap_text (T : Tokenizer) (cfg : ChunkerConfig) (text : Text) : Text :=
  let tokens := T.encode text
  if tokens.length ≤ cfg.overlap_size then text
  else if cfg.overlap_size = 0 then T.decode tokens
  else T.decode (tokens.drop (tokens.length - cfg.overlap_size))

/-- The in-loop state of `_split_large_section`: emitted chunks, the
running buffer, its bookkept token count, and the next chunk index. -/
structure SplitState where
  chunks : List ContentChunk
  cur : Text
  curTokens : Nat
  idx : Nat
deriving Repr

/-- The two-character separator `"\n\n"` used when appending a paragraph
to a non-empty buffer. -/
def nl2 : Text := ['\n', '\n']

/-- One iteration of the paragraph loop of `_split_large_section`. -/
def splitStep (T : Tokenizer) (cfg : ChunkerConfig) (document : ParsedDocument)
    (s : Section) (heading_path : List Text) (st : SplitState) (para : Text) :
    SplitState :=
  let para_tokens := count_tokens T para
  if cfg.max_chunk_size < st.curTokens + para_tokens then
    if cfg.min_chunk_size ≤ st.curTokens then
      let chunk := create_chunk T document s heading_path (pyStrip st.cur) st.idx
      let newCur := get_overlap_text T cfg st.cur ++ nl2 ++ para
      { chunks := st.chunks ++ [chunk]
      , cur := newCur
      , curTokens := count_tokens T newCur
      , idx := st.idx + 1 }
    else
      { st with cur := st.cur ++ nl2 ++ para
              , curTokens := st.curTokens + para_tokens }
  else
    if !st.cur.isEmpty then
      { st with cur := st.cur ++ nl2 ++ para
              , curTokens := st.curTokens + para_tokens }
    else
      { st with cur := para, curTokens := st.curTokens + para_tokens }

/-- `_split_large_section`: fold the paragraph loop, then flush the final
buffer if it is non-empty after stripping. -/
def split_large_section (T : Tokenizer) (cfg : ChunkerConfig) (s : Section)
    (heading_path : List Text) (document : ParsedDocument) : List ContentChunk :=
  let paras := split_into_paragraphs s.content
  let st := paras.foldl (splitStep T cfg document s heading_path) ⟨[], [], 0, 0⟩
  if !(pyStrip st.cur).isEmpty then
    st.chunks ++ [create_chunk T document s heading_path (pyStrip st.cur) st.idx]
  else
    st.chunks

/-- `_chunk_section`: a section that fits within `max_chunk_size` becomes
exactly one chunk holding the whole (unstripped) section body; an
oversized section is split.  The heading path of tuples is flattened to
its strings first. -/
def chunk_section (T : Tokenizer) (cfg : ChunkerConfig) (s : Section)
    (heading_path : List (Nat × Text)) (document : ParsedDocument) :
    List ContentChunk :=
  let heading_strings := heading_path.map Prod.snd
  if count_tokens T s.content ≤ cfg.max_chunk_size then
    [create_chunk T document s heading_strings s.content 0]
  else
    split_large_section T cfg s heading_strings document

/-- `_update_heading_stack`: pop entries with level `≥ section.level`
from the top of the stack (the list's tail end), then push the section's
own heading. -/
def update_heading_stack (heading_stack : List (Nat × Text)) (s : Section) :
    List (Nat × Text) :=
  (heading_stack.reverse.dropWhile (fun p => s.level ≤ p.1)).reverse
    ++ [(s.level, s.heading)]

/-- `chunk_document`: walk the sections in order, maintaining the heading
stack, and concatenate each section's chunks. -/
def chunk_document (T : Tokenizer) (cfg : ChunkerConfig)
    (document : ParsedDocument) : List ContentChunk :=
  (document.sections.foldl
    (fun (acc : List (Nat × Text) × List ContentChunk) s =>
      let stack := update_heading_stack acc.1 s
      (stack, acc.2 ++ chunk_section T cfg s stack document))
    ([], [])).2

/-- Recursive view of the `chunk_document` fold (proof support): the
chunks emitted from `sections`, starting from a given heading stack. -/
def chunkDocAux (T : Tokenizer) (cfg : ChunkerConfig) (document : ParsedDocument)
    (stack : List (Nat × Text)) : List Section → List ContentChunk
  | [] => []
  | s :: rest =>
    let stack' := update_heading_stack stack s
    chunk_section T cfg s stack' document ++ chunkDocAux T cfg document stack' rest

/-- The loop state of `_split_large_section` with the emitted chunks
replaced by the raw (pre-`strip`) buffers they were created from
(proof support for overlap-continuity facts). -/
structure SplitTrace where
  bufs : List Text
  cur : Text
  curTokens : Nat
deriving Repr

/-- `splitStep` at buffer level: identical branching, recording the
closed buffer instead of the chunk built from its stripped text. -/
def splitTraceStep (T : Tokenizer) (cfg : ChunkerConfig) (st : SplitTrace)
    (para : Text) : SplitTrace :=
  let para_tokens := count_tokens T para
  if cfg.max_chunk_size < st.curTokens + para_tokens then
    if cfg.min_chunk_size ≤ st.curTokens then
      let newCur := get_overlap_text T cfg st.cur ++ nl2 ++ para
      { bufs := st.bufs ++ [st.cur]
      , cur := newCur
      , curTokens := count_tokens T newCur }
    else
      { st with cur := st.cur ++ nl2 ++ para
              , curTokens := st.curTokens + para_tokens }
  else
    if !st.cur.isEmpty then
      { st with cur := st.cur ++ nl2 ++ para
              , curTokens := st.curTokens + para_tokens }
    else
      { st with cur := para, curTokens := st.curTokens + para_tokens }

/-- The sequence of raw buffers whose stripped texts are the chunks of
`_split_large_section` on the given paragraph list. -/
def splitBuffers (T : Tokenizer) (cfg : ChunkerConfig) (paras : List Text) :
    List Text :=
  let st := paras.foldl (splitTraceStep T cfg) ⟨[], [], 0⟩
  if !(pyStrip st.cur).isEmpty then st.bufs ++ [st.cur] else st.bufs

/-- Adjacent-overlap property of a buffer sequence: every buffer after
the first begins with the overlap fragment of the buffer before it. -/
def adjacentOverlap (T : Tokenizer) (cfg : ChunkerConfig) (l : List Text) : Prop :=
  ∀ j b b', l.get? j = some b → l.get? (j + 1) = some b' →
    ∃ rest, b' = get_overlap_text T cfg b ++ rest

/-- The buffer invariant: closed buffers are adjacent-overlapping, and
the running buffer extends the overlap fragment of the last closed
buffer. -/
def traceInv (T : Tokenizer) (cfg : ChunkerConfig) (st : SplitTrace) : Prop :=
  adjacentOverlap T cfg st.bufs
  ∧ ∀ lb, st.bufs.getLast? = some lb →
      ∃ rest, st.cur = get_overlap_text T cfg lb ++ rest

end SemanticChunker

/-- A one-section document whose single paragraph has six tokens under
the character tokenizer, exceeding a `max_chunk_size` of 4. -/
def oversizedParaDoc : ParsedDocument :=
  ⟨"f.md".data, [⟨"H".data, 1, "aaaaaa".data, 0, 1⟩],
   "t".data, "c1".data, "d".data, [], "u".data⟩

/-- A one-section document whose section is a single one-token body:
it fits within `max_chunk_size`, so the oversized-section exception does
not apply, yet its single chunk falls below `min_chunk_size = 2`. -/
def smallSectionDoc : ParsedDocument :=
  ⟨"f.md".data, [⟨"H".data, 1, "a".data, 0, 1⟩],
   "t".data, "c1".data, "d".data, [], "u".data⟩

/-- A mixed document: one oversized section (six tokens under the
character tokenizer, over a `max_chunk_size` of 4) followed by one
fitting section (two tokens). -/
def mixedChunkDoc : ParsedDocument :=
  ⟨"f.md".data,
   [⟨"H1".data, 1, "aaaaaa".data, 0, 1⟩, ⟨"H2".data, 1, "ab".data, 2, 3⟩],
   "t".data, "c1".data, "d".data, [], "u".data⟩

/-- A one-section document producing an overlap fragment that starts
with a space: paragraphs `"ab cd"` and `"pe"`. -/
def overlapStripDoc : ParsedDocument :=
  ⟨"f.md".data, [⟨"H".data, 1, "ab cd\n\npe".data, 0, 1⟩],
   "t".data, "c1".data, "d".data, [], "u".data⟩

/-- Vector-path result list of the end-to-end RRF scenario:
ids A=0, B=1, C=2 at ranks 0, 1, 2. -/
def rrfVecExample : List RetrievedChunk :=
  [⟨0, [], 0, [], [], none, [], []⟩,
   ⟨1, [], 0, [], [], none, [], []⟩,
   ⟨2, [], 0, [], [], none, [], []⟩]

/-- BM25-path result list of the end-to-end RRF scenario:
ids C=2, A=0, D=3 at ranks 0, 1, 2. -/
def rrfBm25Example : List RetrievedChunk :=
  [⟨2, [], 0, [], [], none, [], []⟩,
   ⟨0, [], 0, [], [], none, [], []⟩,
   ⟨3, [], 0, [], [], none, [], []⟩]

/-- A two-object store in which the vector list and the BM25 list hold
*distinct* objects carrying the same chunk id 5: reference 0 (score 100)
is the vector object, reference 1 (score 7) the BM25 object. -/
def sharedIdStore : ChunkStore :=
  [⟨5, [], 100, [], [], none, [], []⟩,
   ⟨5, "b".data, 7, [], [], none, [], []⟩]

/-- An embedding vector. -/
abbrev Emb := List ℚ

namespace EmbeddingGenerator

/-- The first pass of `generate_embeddings_batch` over `enumerate(texts)`:
cache hits are appended to `embeddings` as `(index, vector)` pairs in
input order; the indices and texts of the misses are appended to
`uncached_indices` / `uncached_texts` in input order.  A disabled cache
(`use_cache=False`) is the constant-`none` function.  `i` is the index of
the head of the remaining text list. -/
def cacheSplit (cache : Text → Option Emb) (i : Nat) :
    List Text → List (Nat × Emb) × List Nat × List Text
  | [] => ([], [], [])
  | t :: ts =>
    let rest := cacheSplit cache (i + 1) ts
    match cache t with
    | some e => ((i, e) :: rest.1, rest.2.1, rest.2.2)
    | none => (rest.1, i :: rest.2.1, t :: rest.2.2)

/-- The batch loop of `generate_embeddings_batch`: slice the uncached
texts into batches of `batch_size` (Python's `range(0, n, batch_size)`
requires a positive step; the `- 1`/`+ 1` shape below makes the
recursion structural and agrees with the source for every positive
`batch_size`), call the provider on each batch, and pair the returned
vectors positionally with `uncached_indices[batch_start + i]` — modelled
as zipping the corresponding index slice (exact whenever the provider
returns one vector per input).  The cache writes performed in this loop
do not affect the returned value and are not modelled. -/
def processBatches (provider : List Text → List Emb) (batch_size : Nat) :
    List Nat → List Text → List (Nat × Emb)
  | _, [] => []
  | idxs, t :: ts =>
    let batch := t :: ts.take (batch_size - 1)
    let embs := provider batch
    (idxs.take batch.length).zip embs
      ++ processBatches provider batch_size (idxs.drop batch.length)
          (ts.drop (batch_size - 1))
termination_by _ txts => txts.length
decreasing_by
  simp only [List.length_cons, List.length_drop]
  omega

/-- `EmbeddingGenerator.generate_embeddings_batch`: split on the cache,
batch-embed the misses, re-join, and stably sort the `(original index,
vector)` pairs by index (`embeddings.sort(key=lambda x: x[0])`) before
dropping the indices. -/
def generate_embeddings_batch (cache : Text → Option Emb)
    (provider : List Text → List Emb) (batch_size : Nat)
    (texts : List Text) : List Emb :=
  let split := cacheSplit cache 0 texts
  let embeddings := split.1 ++ processBatches provider batch_size split.2.1 split.2.2
  (embeddings.mergeSort (fun x y => x.1 ≤ y.1)).map Prod.snd

end EmbeddingGenerator

/-! ## Helper lemmas -/

namespace SemanticChunker

/-- The pair fold inside `chunk_document` accumulates exactly the chunks
of `chunkDocAux`. -/
theorem foldl_chunk_eq (T : Tokenizer) (cfg : ChunkerConfig)
    (document : ParsedDocument) (secs : List Section)
    (stack : List (Nat × Text)) (acc : List ContentChunk) :
    (secs.foldl
      (fun (a : List (Nat × Text) × List ContentChunk) s =>
        let stack' := update_heading_stack a.1 s
        (stack', a.2 ++ chunk_section T cfg s stack' document))
      (stack, acc)).2
      = acc ++ chunkDocAux T cfg document stack secs := by
  induction secs generalizing stack acc with
  | nil => simp [chunkDocAux]
  | cons s rest ih =>
    simp only [List.foldl_cons, chunkDocAux, ih, List.append_assoc]

/-- `chunk_document` in recursive form. -/
theorem chunk_document_eq_aux (T : Tokenizer) (cfg : ChunkerConfig)
    (document : ParsedDocument) :
    chunk_document T cfg document
      = chunkDocAux T cfg document [] document.sections := by
  unfold chunk_document
  simpa using foldl_chunk_eq T cfg document document.sections [] []

end SemanticChunker

/-! ## C3 — chunker bounds validation -/

/-- C3 counterexample.  The claim says construction with
`min_chunk_size ≥ max_chunk_size` or `overlap_size ≥ min_chunk_size`
fails with a configuration error.  `SemanticChunker.__init__` performs no
bounds validation: constructing with `min = 10 ≥ max = 5` and
`overlap = 50 ≥ min = 10` succeeds. -/
theorem c3_counterexample :
    SemanticChunker.mk' 10 5 50 = Except.ok ⟨10, 5, 50⟩
      ∧ (5 : Nat) ≤ 10 ∧ (10 : Nat) ≤ 50 :=
  ⟨rfl, by decide, by decide⟩

/-- C3 amended: construction never fails — no bounds check exists, every
argument triple is accepted unconditionally (and chunking is a total
function of the stored sizes, so nothing fails for these reasons at call
time either). -/
theorem c3_amended (mn mx ov : Nat) :
    SemanticChunker.mk' mn mx ov = Except.ok ⟨mn, mx, ov⟩ := rfl

/-! ## C5 — empty query and empty corpus -/

/-- C5: a query with no tokens after tokenization scores every document
of a corpus as 0, in corpus order, and an empty corpus yields an empty
ranking. -/
theorem c5_empty_query_zero_scores (lnq : ℚ → ℚ) (k1 b : ℚ) (query : Text)
    (documents : List (Nat × Text)) (h : BM25.tokenize query = []) :
    BM25.score_documents lnq k1 b query documents
        = documents.map (fun d => (d.1, (0 : ℚ)))
      ∧ BM25.score_documents lnq k1 b query [] = [] := by
  refine ⟨?_, rfl⟩
  by_cases hd : documents = []
  · subst hd; rfl
  · simp [BM25.score_documents, hd, h]

/-- C5 witness: the all-punctuation query `"!?."` tokenizes to nothing
and scores a two-document corpus as zeroes in corpus order. -/
theorem c5_witness :
    BM25.tokenize "!?.".data = []
      ∧ BM25.score_documents (fun x => x - 1) (3/2) (3/4) "!?.".data
          [(0, "a".data), (1, "b".data)] = [(0, 0), (1, 0)] := by
  have h : BM25.tokenize "!?.".data = [] := by decide
  exact ⟨h, ((c5_empty_query_zero_scores (fun x => x - 1) (3/2) (3/4) "!?.".data
    [(0, "a".data), (1, "b".data)] h).1).trans rfl⟩

/-! ## C1 — chunk token-count bounds -/

/-- C1 counterexample.  With the character tokenizer and bounds
`min = 2 < max = 4`, the `[min, max]` claim fails in both directions in
ways its oversized-section exception does not cover.  (1) A document
whose single section is one six-token paragraph emits a chunk with
`token_count = 6 > max`: the only allowed exception is a terminal chunk
*below* `min`, never above `max`.  (2) A document whose single section
is one token *fits* within `max` (so the oversized-section exception is
inapplicable) and emits a chunk with `token_count = 1 < min`. -/
theorem c1_counterexample :
    (((SemanticChunker.chunk_document charTok ⟨2, 4, 1⟩ oversizedParaDoc).map
        (fun c => c.token_count)) = [6]
      ∧ (2 : Nat) < 4 ∧ (4 : Nat) < 6)
    ∧ (((SemanticChunker.chunk_document charTok ⟨2, 4, 1⟩ smallSectionDoc).map
        (fun c => c.token_count)) = [1]
      ∧ SemanticChunker.count_tokens charTok "a".data ≤ 4
      ∧ (1 : Nat) < 2) :=
  ⟨⟨by decide, by decide, by decide⟩, ⟨by decide, by decide, by decide⟩⟩

/-- C1 amended: `chunk_document` concatenates each section's chunks in
order (first conjunct, the per-section decomposition, which holds for
arbitrary — in particular mixed — documents), and *any* section whose
total token count is at most `max_chunk_size` yields exactly one chunk
holding the whole section body, whose `token_count` *equals* the
section's token count — hence is at most `max_chunk_size`, though it may
fall below `min_chunk_size` (a small fitting section yields a single
undersized chunk, uncovered by the original claim's oversized-section
exception).  Chunks of an oversized section can leave `[min, max]` in
both directions: the terminal remainder may fall below `min`, and a
below-`min` buffer force-merged with a large paragraph (in particular a
paragraph exceeding `max`, which is never subdivided) may exceed
`max`. -/
theorem c1_amended (T : Tokenizer) (cfg : ChunkerConfig) (doc : ParsedDocument)
    (s : Section) (stack : List (Nat × Text))
    (hfit : SemanticChunker.count_tokens T s.content ≤ cfg.max_chunk_size) :
    SemanticChunker.chunk_document T cfg doc
        = SemanticChunker.chunkDocAux T cfg doc [] doc.sections
    ∧ SemanticChunker.chunk_section T cfg s stack doc
        = [SemanticChunker.create_chunk T doc s (stack.map Prod.snd)
            s.content 0]
    ∧ ∀ c ∈ SemanticChunker.chunk_section T cfg s stack doc,
        c.token_count = SemanticChunker.count_tokens T s.content
        ∧ c.token_count ≤ cfg.max_chunk_size := by
  have hsec : SemanticChunker.chunk_section T cfg s stack doc
      = [SemanticChunker.create_chunk T doc s (stack.map Prod.snd)
          s.content 0] := by
    simp only [SemanticChunker.chunk_section, if_pos hfit]
  refine ⟨SemanticChunker.chunk_document_eq_aux T cfg doc, hsec, ?_⟩
  intro c hc
  rw [hsec, List.mem_singleton] at hc
  subst hc
  exact ⟨rfl, hfit⟩

/-- C1 amended, witness: a mixed document (one oversized six-token
section, one fitting two-token section); the fitting section's chunks
carry exactly its token count, with the heading stack that section
actually receives. -/
theorem c1_amended_witness :
    SemanticChunker.count_tokens charTok "ab".data ≤ (4 : Nat)
    ∧ (SemanticChunker.chunk_document charTok ⟨2, 4, 1⟩ mixedChunkDoc
        = SemanticChunker.chunkDocAux charTok ⟨2, 4, 1⟩ mixedChunkDoc []
            mixedChunkDoc.sections
      ∧ SemanticChunker.chunk_section charTok ⟨2, 4, 1⟩
          ⟨"H2".data, 1, "ab".data, 2, 3⟩ [(1, "H2".data)] mixedChunkDoc
        = [SemanticChunker.create_chunk charTok mixedChunkDoc
            ⟨"H2".data, 1, "ab".data, 2, 3⟩
            ([(1, "H2".data)].map Prod.snd) "ab".data 0]
      ∧ ∀ c ∈ SemanticChunker.chunk_section charTok ⟨2, 4, 1⟩
          ⟨"H2".data, 1, "ab".data, 2, 3⟩ [(1, "H2".data)] mixedChunkDoc,
          c.token_count = SemanticChunker.count_tokens charTok "ab".data
          ∧ c.token_count ≤ (4 : Nat)) :=
  ⟨by decide, c1_amended charTok ⟨2, 4, 1⟩ mixedChunkDoc
    ⟨"H2".data, 1, "ab".data, 2, 3⟩ [(1, "H2".data)] (by decide)⟩

/-! ## C4 — BM25 non-negativity -/

/-- C4 failing input.  `score_documents` increments `df[token]` once per
*occurrence* of the token in the query token list (the inner loop runs
over the non-deduplicated `query_tokens`), so the query `"be be"`
against the one-document corpus `[(0, "be")]` produces `df = 2 > N = 1`
and the idf argument `(N - df + 0.5)/(df + 0.5) + 1 = 4/5 < 1`.  The
returned score is `2·ln(4/5)`, which is strictly negative for the real
(and floating-point) logarithm — contradicting the claimed
non-negativity.  The claim itself is the documented intent (the `+1` idf
form was chosen exactly to be non-negative, which it is whenever
`df ≤ N`); the double-counting of `df` for repeated query terms is the
slip. -/
theorem c4_negative_score_at_failing_input :
    (∀ lnq : ℚ → ℚ,
      BM25.score_documents lnq (3/2) (3/4) "be be".data [(0, "be".data)]
        = [(0, 2 * lnq (4/5))])
      ∧ Real.log ((4 : ℝ)/5) < 0 := by
  constructor
  · intro lnq
    have h1 : BM25.tokenize "be be".data = ["be".data, "be".data] := by decide
    have h2 : BM25.tokenize "be".data = ["be".data] := by decide
    simp only [BM25.score_documents, h1, h2]
    norm_num [BM25.docScore, BM25.termScore, BM25.idfOf, BM25.dfOfTerm,
      BM25.pyDictGet, BM25.pyDictOfList, BM25.pyDictSet, List.mergeSort,
      List.count_cons, List.count_nil, List.foldl, List.find?]
    norm_num [show BM25.tokenize ['b', 'e'] = [['b', 'e']] from h2]
    ring_nf
  · exact Real.log_neg (by norm_num) (by norm_num)

/-! ## C7 — lexical path output -/

/-- An all-zero score list is (weakly) descending. -/
theorem zeros_pairwise_desc (l : List (Nat × Text)) :
    List.Pairwise (fun a b : Nat × ℚ => b.2 ≤ a.2)
      (l.map (fun d => (d.1, (0 : ℚ)))) := by
  induction l with
  | nil => simp
  | cons d t ih =>
    simp only [List.map_cons, List.pairwise_cons]
    refine ⟨fun b hb => ?_, ih⟩
    obtain ⟨x, _, rfl⟩ := List.mem_map.1 hb
    simp

/-- The ranking returned by `score_documents` is descending in score. -/
theorem score_documents_sorted (lnq : ℚ → ℚ) (k1 b : ℚ) (query : Text)
    (documents : List (Nat × Text)) :
    List.Pairwise (fun a b : Nat × ℚ => b.2 ≤ a.2)
      (BM25.score_documents lnq k1 b query documents) := by
  unfold BM25.score_documents
  by_cases hd : documents.isEmpty
  · simp [hd]
  · simp only [hd, Bool.false_eq_true, if_false]
    by_cases hq : (BM25.tokenize query).isEmpty
    · simpa [hq] using zeros_pairwise_desc documents
    · simp only [hq, Bool.false_eq_true, if_false]
      have hs := @List.sorted_mergeSort (Nat × ℚ)
        (fun x y : Nat × ℚ => decide (y.2 ≤ x.2))
        (fun a b c hab hbc => by
          simp only [decide_eq_true_eq] at *
          exact le_trans hbc hab)
        (fun a b => by
          simp only [Bool.or_eq_true, decide_eq_true_eq]
          exact le_total b.2 a.2)
      exact (hs _).imp (fun h => by simpa using h)

/-- C7: the lexical path returns at most `top_k` chunks, every returned
chunk has a strictly positive BM25 score (zero or negative scores are
skipped), and the returned list is sorted descending by score. -/
theorem c7_bm25_search_spec (lnq : ℚ → ℚ) (k1 b : ℚ) (query : Text)
    (top_k : Nat) (points : List QdrantPoint) :
    (HybridRetriever.bm25_search lnq k1 b query top_k points).length ≤ top_k
    ∧ (∀ c ∈ HybridRetriever.bm25_search lnq k1 b query top_k points,
        0 < c.score)
    ∧ List.Pairwise (fun a c : RetrievedChunk => c.score ≤ a.score)
        (HybridRetriever.bm25_search lnq k1 b query top_k points) := by
  unfold HybridRetriever.bm25_search
  by_cases hp : points.isEmpty
  · simp [hp]
  · simp only [hp, Bool.false_eq_true, if_false]
    set L := BM25.score_documents lnq k1 b query
      (points.map (fun p => (p.id, p.content))) with hL
    refine ⟨?_, ?_, ?_⟩
    · rw [List.length_map]
      calc ((L.take top_k).filter (fun s => 0 < s.2)).length
          ≤ (L.take top_k).length := List.length_filter_le _ _
        _ ≤ top_k := List.length_take_le _ _
    · intro c hc
      obtain ⟨s, hs, rfl⟩ := List.mem_map.1 hc
      have := (List.mem_filter.1 hs).2
      simpa using this
    · have hsorted : List.Pairwise (fun a b : Nat × ℚ => b.2 ≤ a.2)
          ((L.take top_k).filter (fun s => 0 < s.2)) :=
        List.Pairwise.sublist
          ((List.filter_sublist _).trans (List.take_sublist _ _))
          (score_documents_sorted lnq k1 b query _)
      exact List.pairwise_map.2 (hsorted.imp (fun h => h))

/-! ## C8 — heading stack invariant -/

/-- On a strictly increasing stack, popping from the top while the level
is `≥ lvl` removes exactly the entries with level `≥ lvl`. -/
theorem dropTail_eq_filter (lvl : Nat) (stack : List (Nat × Text))
    (h : List.Pairwise (fun a b : Nat × Text => a.1 < b.1) stack) :
    (stack.reverse.dropWhile (fun p => lvl ≤ p.1)).reverse
      = stack.filter (fun p => p.1 < lvl) := by
  induction stack using List.reverseRecOn with
  | nil => simp
  | append_singleton l a ih =>
    rw [List.pairwise_append] at h
    obtain ⟨hl, -, hla⟩ := h
    by_cases ha : lvl ≤ a.1
    · rw [List.reverse_append, List.reverse_singleton, List.singleton_append,
        List.dropWhile_cons_of_pos (by simpa using ha), ih hl,
        List.filter_append]
      have : ¬ (a.1 < lvl) := by omega
      simp [this]
    · rw [List.reverse_append, List.reverse_singleton, List.singleton_append,
        List.dropWhile_cons_of_neg (by simpa using ha),
        List.reverse_cons, List.reverse_reverse, List.filter_append,
        List.filter_eq_self.2 (fun x hx => ?_)]
      · have : a.1 < lvl := by omega
        simp [this]
      · have hx1 : x.1 < a.1 := hla x hx a (by simp)
        simp only [decide_eq_true_eq]
        omega

/-- `_update_heading_stack` preserves strict monotonicity of levels. -/
theorem update_preserves_sorted (stack : List (Nat × Text)) (s : Section)
    (h : List.Pairwise (fun a b : Nat × Text => a.1 < b.1) stack) :
    List.Pairwise (fun a b : Nat × Text => a.1 < b.1)
      (SemanticChunker.update_heading_stack stack s) := by
  unfold SemanticChunker.update_heading_stack
  rw [dropTail_eq_filter s.level stack h]
  rw [List.pairwise_append]
  refine ⟨h.filter _, by simp, fun x hx y hy => ?_⟩
  have := (List.mem_filter.1 hx).2
  simp only [List.mem_singleton] at hy
  subst hy
  simpa using this

/-- C8: the heading stack built by the `chunk_document` walk is at every
point strictly increasing in level from root (list head) to leaf (list
tail) — in particular no two entries share a level — and on a stack
satisfying the invariant, processing a section of level `L` removes
exactly the entries with level `≥ L` and then appends `(L, heading)`. -/
theorem c8_heading_stack_invariant (secs : List Section)
    (stack : List (Nat × Text)) (s : Section)
    (h : List.Pairwise (fun a b : Nat × Text => a.1 < b.1) stack) :
    List.Pairwise (fun a b : Nat × Text => a.1 < b.1)
      (secs.foldl SemanticChunker.update_heading_stack [])
    ∧ SemanticChunker.update_heading_stack stack s
        = stack.filter (fun p => p.1 < s.level) ++ [(s.level, s.heading)] := by
  constructor
  · suffices H : ∀ (l : List Section) (st : List (Nat × Text)),
        List.Pairwise (fun a b : Nat × Text => a.1 < b.1) st →
        List.Pairwise (fun a b : Nat × Text => a.1 < b.1)
          (l.foldl SemanticChunker.update_heading_stack st) by
      exact H secs [] (by simp)
    intro l
    induction l with
    | nil => intro st hst; simpa
    | cons x xs ih =>
      intro st hst
      exact ih _ (update_preserves_sorted _ _ hst)
  · unfold SemanticChunker.update_heading_stack
    rw [dropTail_eq_filter s.level stack h]

/-- C8 witness: two sections of levels 1 and 2, and one concrete
pop-and-push step on the stack `[(1, "x")]`. -/
theorem c8_witness :
    List.Pairwise (fun a b : Nat × Text => a.1 < b.1)
      (([⟨"a".data, 1, [], 0, 0⟩, ⟨"b".data, 2, [], 0, 0⟩] : List Section).foldl
        SemanticChunker.update_heading_stack [])
    ∧ SemanticChunker.update_heading_stack [(1, "x".data)]
        ⟨"b".data, 2, [], 0, 0⟩
        = [(1, "x".data)].filter (fun p => p.1 < 2) ++ [(2, "b".data)] :=
  c8_heading_stack_invariant
    [⟨"a".data, 1, [], 0, 0⟩, ⟨"b".data, 2, [], 0, 0⟩]
    [(1, "x".data)] ⟨"b".data, 2, [], 0, 0⟩ (by decide)

/-! ## C2 — reciprocal rank fusion -/

/-- When the ids of a result list are pairwise distinct, the rank dict
assigns an id its (unique) 0-based position. -/
theorem rankFrom_eq_indexOf (l : List RetrievedChunk)
    (hl : (l.map (fun c => c.chunk_id)).Nodup) (i : Nat) :
    ∀ start, HybridRetriever.rankFrom start l i
      = if i ∈ l.map (fun c => c.chunk_id)
        then some (start + (l.map (fun c => c.chunk_id)).indexOf i)
        else none := by
  induction l with
  | nil => intro start; simp [HybridRetriever.rankFrom]
  | cons c cs ih =>
    intro start
    simp only [List.map_cons, List.nodup_cons] at hl
    obtain ⟨hc, hcs⟩ := hl
    simp only [HybridRetriever.rankFrom]
    rw [ih hcs (start + 1)]
    by_cases hmem : i ∈ cs.map (fun c => c.chunk_id)
    · have hne : c.chunk_id ≠ i := fun he => hc (he ▸ hmem)
      simp only [hmem, if_true, List.map_cons]
      rw [if_pos (List.mem_cons_of_mem _ hmem), List.indexOf_cons_ne _ hne]
      simp only [Option.some.injEq]
      omega
    · simp only [hmem, if_false]
      by_cases he : c.chunk_id = i
      · subst he
        simp [List.indexOf_cons_self]
      · have : ¬ i ∈ c.chunk_id :: cs.map (fun c => c.chunk_id) := by
          simp only [List.mem_cons]
          rintro (rfl | hm)
          · exact he rfl
          · exact hmem hm
        simp [he, this]

/-- For an id drawn from either list, `chunk_map` resolves to a chunk
carrying that id; the chunk comes from one of the lists, with the BM25
list taking priority. -/
theorem chunkMapGet_spec (vres bres : List RetrievedChunk) (i : Nat)
    (h : i ∈ vres.map (fun c => c.chunk_id)
       ∨ i ∈ bres.map (fun c => c.chunk_id)) :
    (HybridRetriever.chunkMapGet vres bres i).chunk_id = i
    ∧ (HybridRetriever.chunkMapGet vres bres i ∈ vres
       ∨ HybridRetriever.chunkMapGet vres bres i ∈ bres)
    ∧ (i ∈ bres.map (fun c => c.chunk_id) →
        HybridRetriever.chunkMapGet vres bres i ∈ bres) := by
  unfold HybridRetriever.chunkMapGet
  cases hfb : bres.reverse.find? (fun c => c.chunk_id = i) with
  | some c =>
    have h1 : c.chunk_id = i := by simpa using List.find?_some hfb
    have h2 : c ∈ bres := List.mem_reverse.1 (List.mem_of_find?_eq_some hfb)
    exact ⟨h1, Or.inr h2, fun _ => h2⟩
  | none =>
    have hnb : i ∉ bres.map (fun c => c.chunk_id) := by
      intro hm
      obtain ⟨x, hx, hxi⟩ := List.mem_map.1 hm
      exact absurd (by simpa using hxi)
        (by simpa using List.find?_eq_none.1 hfb x (List.mem_reverse.2 hx))
    have hv : i ∈ vres.map (fun c => c.chunk_id) := h.resolve_right hnb
    cases hfv : vres.reverse.find? (fun c => c.chunk_id = i) with
    | some c =>
      have h1 : c.chunk_id = i := by simpa using List.find?_some hfv
      have h2 : c ∈ vres := List.mem_reverse.1 (List.mem_of_find?_eq_some hfv)
      exact ⟨h1, Or.inl h2, fun hm => absurd hm hnb⟩
    | none =>
      exact absurd hv (by
        intro hm
        obtain ⟨x, hx, hxi⟩ := List.mem_map.1 hm
        exact absurd (by simpa using hxi)
          (by simpa using List.find?_eq_none.1 hfv x (List.mem_reverse.2 hx)))

/-- C2: RRF assigns each id appearing in either list the sum, over the
lists containing it, of `1/(k + rank)` (0-based ranks), returns exactly
the union of the ids sorted by that score descending with each returned
chunk's `score` overwritten by its RRF value; and on the end-to-end
scenario — vector ids `[A,B,C] = [0,1,2]`, BM25 ids `[C,A,D] = [2,0,3]`,
`k = 60` — the fused order is exactly `A, C, B, D` with the exact
scores. -/
theorem c2_rrf_spec (vres bres : List RetrievedChunk) (k : Nat)
    (hv : (vres.map (fun c => c.chunk_id)).Nodup)
    (hb : (bres.map (fun c => c.chunk_id)).Nodup) :
    (∀ c ∈ HybridRetriever.reciprocal_rank_fusion vres bres k,
        c.score =
          (if c.chunk_id ∈ vres.map (fun c => c.chunk_id)
           then 1 / ((k : ℚ)
             + ((vres.map (fun c => c.chunk_id)).indexOf c.chunk_id : ℚ))
           else 0)
          + (if c.chunk_id ∈ bres.map (fun c => c.chunk_id)
           then 1 / ((k : ℚ)
             + ((bres.map (fun c => c.chunk_id)).indexOf c.chunk_id : ℚ))
           else 0))
    ∧ (∀ i, i ∈ (HybridRetriever.reciprocal_rank_fusion vres bres k).map
          (fun c => c.chunk_id)
        ↔ (i ∈ vres.map (fun c => c.chunk_id)
           ∨ i ∈ bres.map (fun c => c.chunk_id)))
    ∧ List.Pairwise (fun a c : RetrievedChunk => c.score ≤ a.score)
        (HybridRetriever.reciprocal_rank_fusion vres bres k)
    ∧ (HybridRetriever.reciprocal_rank_fusion rrfVecExample rrfBm25Example 60).map
          (fun c => (c.chunk_id, c.score))
        = [(0, 1/60 + 1/61), (2, 1/62 + 1/60), (1, 1/61), (3, 1/62)] := by
  have hmm : ∀ i, i ∈ (HybridRetriever.allChunkIds vres bres).mergeSort
        (fun a b => HybridRetriever.rrfScore vres bres k b
          ≤ HybridRetriever.rrfScore vres bres k a)
      ↔ (i ∈ vres.map (fun c => c.chunk_id)
         ∨ i ∈ bres.map (fun c => c.chunk_id)) := by
    intro i
    rw [(List.mergeSort_perm _ _).mem_iff]
    simp [HybridRetriever.allChunkIds, List.mem_dedup]
  refine ⟨?_, ?_, ?_, by
    norm_num [HybridRetriever.reciprocal_rank_fusion, HybridRetriever.allChunkIds,
      HybridRetriever.rrfScore, HybridRetriever.rankFrom,
      HybridRetriever.chunkMapGet, rrfVecExample, rrfBm25Example,
      List.dedup_cons_of_mem, List.dedup_cons_of_not_mem,
      List.mergeSort, List.splitInTwo, List.splitAt_eq, List.merge,
      List.find?]⟩
  · intro c hc
    obtain ⟨i, hi, rfl⟩ := List.mem_map.1 hc
    have hid := (chunkMapGet_spec vres bres i (hmm i |>.1 hi)).1
    show HybridRetriever.rrfScore vres bres k i = _
    simp only [hid]
    unfold HybridRetriever.rrfScore
    rw [rankFrom_eq_indexOf vres hv i 0, rankFrom_eq_indexOf bres hb i 0]
    by_cases h1 : i ∈ vres.map (fun c => c.chunk_id)
      <;> by_cases h2 : i ∈ bres.map (fun c => c.chunk_id)
      <;> simp [h1, h2]
  · intro i
    unfold HybridRetriever.reciprocal_rank_fusion
    rw [List.map_map]
    constructor
    · intro hm
      obtain ⟨j, hj, hji⟩ := List.mem_map.1 hm
      have hji' : (HybridRetriever.chunkMapGet vres bres j).chunk_id = i := hji
      have hij : i = j := by
        rw [← hji', (chunkMapGet_spec vres bres j (hmm j |>.1 hj)).1]
      exact hij ▸ (hmm j).1 hj
    · intro hm
      refine List.mem_map.2 ⟨i, (hmm i).2 hm, ?_⟩
      exact (chunkMapGet_spec vres bres i hm).1
  · unfold HybridRetriever.reciprocal_rank_fusion
    refine List.pairwise_map.2 ?_
    have hs := @List.sorted_mergeSort Nat
      (fun a b => decide (HybridRetriever.rrfScore vres bres k b
        ≤ HybridRetriever.rrfScore vres bres k a))
      (fun a b c hab hbc => by
        simp only [decide_eq_true_eq] at *
        exact le_trans hbc hab)
      (fun a b => by
        simp only [Bool.or_eq_true, decide_eq_true_eq]
        exact le_total _ _)
      (HybridRetriever.allChunkIds vres bres)
    exact hs.imp (fun h => by simpa using h)

/-- C2 witness: the scenario lists have pairwise-distinct ids, and the
fused scores on them follow the claimed formula. -/
theorem c2_witness :
    ((rrfVecExample.map (fun c => c.chunk_id)).Nodup
      ∧ (rrfBm25Example.map (fun c => c.chunk_id)).Nodup)
    ∧ List.Pairwise (fun a c : RetrievedChunk => c.score ≤ a.score)
        (HybridRetriever.reciprocal_rank_fusion rrfVecExample rrfBm25Example 60) :=
  ⟨⟨by decide, by decide⟩,
    (c2_rrf_spec rrfVecExample rrfBm25Example 60 (by decide) (by decide)).2.2.1⟩

/-! ## C6 — overlap continuity -/

namespace SemanticChunker

/-- Enumerating a list extended by one element. -/
theorem enum_concat (l : List α) (x : α) :
    (l ++ [x]).enum = l.enum ++ [(l.length, x)] := by
  simp [List.enum_append]

/-- The chunk-level loop of `_split_large_section` is the buffer-level
loop with every closed buffer turned into a chunk of its stripped text,
indexed by position. -/
theorem split_fold_rel (T : Tokenizer) (cfg : ChunkerConfig)
    (document : ParsedDocument) (s : Section) (hp : List Text) :
    ∀ (paras : List Text) (bufs : List Text) (cur : Text) (ctok : Nat),
    paras.foldl (splitStep T cfg document s hp)
      ⟨bufs.enum.map (fun p => create_chunk T document s hp (pyStrip p.2) p.1),
        cur, ctok, bufs.length⟩
      = (fun st : SplitTrace =>
          (⟨st.bufs.enum.map
              (fun p => create_chunk T document s hp (pyStrip p.2) p.1),
            st.cur, st.curTokens, st.bufs.length⟩ : SplitState))
          (paras.foldl (splitTraceStep T cfg) ⟨bufs, cur, ctok⟩) := by
  intro paras
  induction paras with
  | nil => intro bufs cur ctok; rfl
  | cons p ps ih =>
    intro bufs cur ctok
    simp only [List.foldl_cons, splitStep, splitTraceStep]
    split_ifs with h1 h2 h3
    · have hA : bufs.enum.map
          (fun q => create_chunk T document s hp (pyStrip q.2) q.1)
            ++ [create_chunk T document s hp (pyStrip cur) bufs.length]
          = (bufs ++ [cur]).enum.map
              (fun q => create_chunk T document s hp (pyStrip q.2) q.1) := by
        rw [enum_concat, List.map_append]
        rfl
      rw [hA, show bufs.length + 1 = (bufs ++ [cur]).length by simp]
      exact ih (bufs ++ [cur]) _ _
    · exact ih bufs _ _
    · exact ih bufs _ _
    · exact ih bufs _ _

/-- `_split_large_section` in buffer form. -/
theorem split_eq_buffers (T : Tokenizer) (cfg : ChunkerConfig) (s : Section)
    (hp : List Text) (document : ParsedDocument) :
    split_large_section T cfg s hp document
      = (splitBuffers T cfg (split_into_paragraphs s.content)).enum.map
          (fun p => create_chunk T document s hp (pyStrip p.2) p.1) := by
  simp only [split_large_section, splitBuffers]
  rw [show (⟨[], [], 0, 0⟩ : SplitState)
      = ⟨([] : List Text).enum.map
          (fun p => create_chunk T document s hp (pyStrip p.2) p.1),
        [], 0, ([] : List Text).length⟩ from rfl,
    split_fold_rel T cfg document s hp (split_into_paragraphs s.content) [] [] 0]
  set st := (split_into_paragraphs s.content).foldl (splitTraceStep T cfg) ⟨[], [], 0⟩
  dsimp only
  by_cases hf : (pyStrip st.cur).isEmpty
  · simp [hf]
  · simp only [hf, Bool.not_false, if_true]
    rw [enum_concat, List.map_append]
    rfl

/-- Appending a buffer that extends the last element's overlap fragment
preserves adjacency. -/
theorem adjacentOverlap_concat (T : Tokenizer) (cfg : ChunkerConfig)
    (l : List Text) (x : Text) (h : adjacentOverlap T cfg l)
    (hx : ∀ lb, l.getLast? = some lb →
      ∃ r, x = get_overlap_text T cfg lb ++ r) :
    adjacentOverlap T cfg (l ++ [x]) := by
  intro j b b' hb hb'
  rcases Nat.lt_trichotomy (j + 1) l.length with hj | hj | hj
  · rw [List.get?_append (by omega)] at hb hb'
    exact h j b b' hb hb'
  · rw [List.get?_append (by omega)] at hb
    have hx' : (l ++ [x]).get? (j + 1) = some x := by
      rw [hj]
      exact List.get?_concat_length l x
    rw [hx'] at hb'
    obtain rfl : x = b' := Option.some.inj hb'
    refine hx b ?_
    rw [List.getLast?_eq_get?, show l.length - 1 = j by omega]
    exact hb
  · rw [List.get?_eq_none.2 (by simp only [List.length_append, List.length_singleton]; omega)] at hb'
    cases hb'

/-- Each paragraph step preserves the buffer invariant. -/
theorem traceStep_inv (T : Tokenizer) (cfg : ChunkerConfig)
    (st : SplitTrace) (para : Text) (h : traceInv T cfg st) :
    traceInv T cfg (splitTraceStep T cfg st para) := by
  obtain ⟨hadj, hcur⟩ := h
  unfold splitTraceStep
  dsimp only
  split_ifs with h1 h2 h3
  · refine ⟨adjacentOverlap_concat T cfg _ _ hadj hcur, fun lb hlb => ?_⟩
    rw [List.getLast?_concat] at hlb
    cases hlb
    exact ⟨nl2 ++ para, by rw [List.append_assoc]⟩
  · refine ⟨hadj, fun lb hlb => ?_⟩
    obtain ⟨r, hr⟩ := hcur lb hlb
    exact ⟨r ++ (nl2 ++ para), by rw [hr]; simp [List.append_assoc]⟩
  · refine ⟨hadj, fun lb hlb => ?_⟩
    obtain ⟨r, hr⟩ := hcur lb hlb
    exact ⟨r ++ (nl2 ++ para), by rw [hr]; simp [List.append_assoc]⟩
  · refine ⟨hadj, fun lb hlb => ?_⟩
    obtain ⟨r, hr⟩ := hcur lb hlb
    have hst : st.cur = [] := by
      simpa using h3
    rw [hst] at hr
    have hov : get_overlap_text T cfg lb = [] := (List.append_eq_nil.1 hr.symm).1
    exact ⟨para, by rw [hov]; rfl⟩

/-- The emitted buffer sequence of `_split_large_section` is
adjacent-overlapping. -/
theorem splitBuffers_adjacent (T : Tokenizer) (cfg : ChunkerConfig)
    (paras : List Text) :
    adjacentOverlap T cfg (splitBuffers T cfg paras) := by
  have hinv : traceInv T cfg (paras.foldl (splitTraceStep T cfg) ⟨[], [], 0⟩) := by
    have : ∀ (l : List Text) (st : SplitTrace), traceInv T cfg st →
        traceInv T cfg (l.foldl (splitTraceStep T cfg) st) := by
      intro l
      induction l with
      | nil => intro st hst; simpa
      | cons x xs ih => intro st hst; exact ih _ (traceStep_inv T cfg st x hst)
    exact this paras ⟨[], [], 0⟩ ⟨fun j b b' hb _ => by simp at hb, fun lb hlb => by simp at hlb⟩
  unfold splitBuffers
  dsimp only
  split_ifs with hf
  · exact adjacentOverlap_concat T cfg _ _ hinv.1 hinv.2
  · exact hinv.1

end SemanticChunker

/-- C6 counterexample.  With the character tokenizer, `min = 5`,
`max = 6`, `overlap = 3` (a *valid* configuration) and the single
oversized section `"ab cd\n\npe"`, the first chunk is `"ab cd"` and the
overlap fragment — the decoded last 3 tokens of that text — is `" cd"`,
which begins with a space.  The continuation buffer `" cd\n\npe"` is
stripped when the chunk is created, so the second chunk `"cd\n\npe"`
does *not* begin with the fragment `" cd"` (its first three characters
differ), refuting the claim as stated. -/
theorem c6_counterexample :
    (SemanticChunker.chunk_document charTok ⟨5, 6, 3⟩ overlapStripDoc).map
        (fun c => c.text)
      = ["ab cd".data, "cd\n\npe".data]
    ∧ SemanticChunker.get_overlap_text charTok ⟨5, 6, 3⟩ "ab cd".data
        = " cd".data
    ∧ List.take 3 "cd\n\npe".data ≠ List.take 3 " cd".data :=
  ⟨by decide, by decide, by decide⟩

/-- C6 amended: each chunk of `_split_large_section` is the `strip` of a
buffer, and every buffer after the first begins with the overlap
fragment of the (pre-strip) buffer of the immediately preceding chunk of
the same section — the fragment being `_get_overlap_text` of that
buffer, i.e. its decoded last `overlap_size` tokens (or all of it when
shorter).  The emitted *text* begins with the fragment whenever the
fragment survives the strip (no leading whitespace); the fragment is
computed from the same section's previous buffer only, never across
sections (`_split_large_section` handles exactly one section). -/
theorem c6_amended (T : Tokenizer) (cfg : ChunkerConfig) (s : Section)
    (hp : List Text) (document : ParsedDocument) :
    SemanticChunker.split_large_section T cfg s hp document
      = (SemanticChunker.splitBuffers T cfg
          (SemanticChunker.split_into_paragraphs s.content)).enum.map
          (fun p => SemanticChunker.create_chunk T document s hp (pyStrip p.2) p.1)
    ∧ SemanticChunker.adjacentOverlap T cfg
        (SemanticChunker.splitBuffers T cfg
          (SemanticChunker.split_into_paragraphs s.content)) :=
  ⟨SemanticChunker.split_eq_buffers T cfg s hp document,
    SemanticChunker.splitBuffers_adjacent T cfg _⟩

/-- C6 amended, witness: on the counterexample section the buffers are
`["ab cd", " cd\n\npe"]` and the second indeed extends the overlap
fragment of the first. -/
theorem c6_witness :
    SemanticChunker.splitBuffers charTok ⟨5, 6, 3⟩
        (SemanticChunker.split_into_paragraphs "ab cd\n\npe".data)
      = ["ab cd".data, " cd\n\npe".data]
    ∧ ∃ rest, " cd\n\npe".data
        = SemanticChunker.get_overlap_text charTok ⟨5, 6, 3⟩ "ab cd".data
            ++ rest := by
  refine ⟨by decide, ?_⟩
  exact (c6_amended charTok ⟨5, 6, 3⟩ ⟨"H".data, 1, "ab cd\n\npe".data, 0, 1⟩
    [] overlapStripDoc).2 0 "ab cd".data " cd\n\npe".data (by decide) (by decide)

/-! ## C9 — batch embedding order preservation -/

/-- Zipping against a split list splits the zip. -/
theorem zip_append_split (idxs : List Nat) (l1 l2 : List Emb) :
    idxs.zip (l1 ++ l2)
      = (idxs.take l1.length).zip l1 ++ (idxs.drop l1.length).zip l2 := by
  induction l1 generalizing idxs with
  | nil => simp
  | cons b bs ih =>
    cases idxs with
    | nil => simp
    | cons a as => simp [ih]

/-- With an order-preserving provider, the batch loop pairs each uncached
index with the embedding of its text, whatever the batch size. -/
theorem processBatches_eq_zip (E : Text → Emb) (bs : Nat) :
    ∀ (n : Nat) (txts : List Text) (idxs : List Nat), txts.length ≤ n →
    EmbeddingGenerator.processBatches (fun ts => ts.map E) bs idxs txts
      = idxs.zip (txts.map E) := by
  intro n
  induction n with
  | zero =>
    intro txts idxs h
    have : txts = [] := List.eq_nil_of_length_eq_zero (Nat.le_zero.1 h)
    subst this
    simp [EmbeddingGenerator.processBatches]
  | succ n ih =>
    intro txts idxs h
    cases txts with
    | nil => simp [EmbeddingGenerator.processBatches]
    | cons t ts =>
      rw [EmbeddingGenerator.processBatches]
      have hsplit : (t :: ts).map E
          = (t :: ts.take (bs - 1)).map E ++ ((ts.drop (bs - 1)).map E) := by
        rw [← List.map_append]
        simp [List.take_append_drop]
      rw [ih (ts.drop (bs - 1)) _ (by
        simp only [List.length_drop, List.length_cons] at *
        omega)]
      rw [hsplit, zip_append_split]
      simp [List.length_map]

/-- The cache pass: the hit pairs together with the zipped miss pairs are
a permutation of the fully annotated input `(index, embedding)` list,
provided cached values agree with the embedding function. -/
theorem cacheSplit_perm (cache : Text → Option Emb) (E : Text → Emb)
    (hc : ∀ t e, cache t = some e → e = E t) :
    ∀ (ts : List Text) (i : Nat),
    ((EmbeddingGenerator.cacheSplit cache i ts).1
        ++ (EmbeddingGenerator.cacheSplit cache i ts).2.1.zip
            ((EmbeddingGenerator.cacheSplit cache i ts).2.2.map E)).Perm
      ((List.enumFrom i ts).map (fun p => (p.1, E p.2))) := by
  intro ts
  induction ts with
  | nil => intro i; simp [EmbeddingGenerator.cacheSplit]
  | cons t ts ih =>
    intro i
    simp only [EmbeddingGenerator.cacheSplit, List.enumFrom_cons, List.map_cons]
    cases hct : cache t with
    | some e =>
      have he := hc t e hct
      subst he
      simpa using (ih (i + 1)).cons ((i, E t))
    | none =>
      simp only [List.map_cons, List.zip_cons_cons]
      refine List.Perm.trans List.perm_middle ?_
      exact (ih (i + 1)).cons ((i, E t))

/-- Indices in `enumFrom` start at the given offset. -/
theorem enumFrom_fst_le (l : List Text) : ∀ (i : Nat) (p : Nat × Text),
    p ∈ List.enumFrom i l → i ≤ p.1 := by
  induction l with
  | nil => intro i p hp; simp at hp
  | cons t ts ih =>
    intro i p hp
    simp only [List.enumFrom_cons, List.mem_cons] at hp
    rcases hp with rfl | hp
    · exact le_refl i
    · exact Nat.le_of_succ_le (ih (i + 1) p hp)

/-- The canonical annotated list is strictly sorted on indices. -/
theorem canonical_pairwise_lt (E : Text → Emb) :
    ∀ (l : List Text) (i : Nat),
    List.Pairwise (fun p q : Nat × Emb => p.1 < q.1)
      ((List.enumFrom i l).map (fun p => (p.1, E p.2))) := by
  intro l
  induction l with
  | nil => intro i; simp
  | cons t ts ih =>
    intro i
    simp only [List.enumFrom_cons, List.map_cons, List.pairwise_cons]
    refine ⟨fun q hq => ?_, ih (i + 1)⟩
    obtain ⟨p, hp, rfl⟩ := List.mem_map.1 hq
    have : i + 1 ≤ p.1 := enumFrom_fst_le ts (i + 1) p hp
    simpa using this

/-- A weakly index-sorted permutation of a strictly index-sorted list is
that list. -/
theorem sorted_perm_canonical_eq (l c : List (Nat × Emb))
    (hperm : l.Perm c)
    (hsorted : List.Pairwise (fun p q : Nat × Emb => p.1 ≤ q.1) l)
    (hcsorted : List.Pairwise (fun p q : Nat × Emb => p.1 < q.1) c) :
    l = c := by
  haveI : IsAntisymm (Nat × Emb) (fun p q => p.1 < q.1) :=
    ⟨fun a b h1 h2 => absurd h2 (Nat.lt_asymm h1)⟩
  refine List.eq_of_perm_of_sorted hperm ?_ hcsorted
  have hndc : (c.map Prod.fst).Nodup :=
    List.pairwise_map.2 (hcsorted.imp (fun h => Nat.ne_of_lt h))
  have hndl : (l.map Prod.fst).Nodup := ((hperm.map Prod.fst).nodup_iff).2 hndc
  have hne : List.Pairwise (fun p q : Nat × Emb => p.1 ≠ q.1) l :=
    List.pairwise_map.1 hndl
  exact (hsorted.and hne).imp (fun h => lt_of_le_of_ne h.1 h.2)

/-- C9: for every interleaving of cache hits and misses, and any provider
that returns one vector per input in input order, the batch API returns
exactly the embeddings of its inputs, in input order. -/
theorem c9_batch_order (cache : Text → Option Emb)
    (provider : List Text → List Emb) (E : Text → Emb) (batch_size : Nat)
    (texts : List Text)
    (hc : ∀ t e, cache t = some e → e = E t)
    (hp : ∀ ts, provider ts = ts.map E)
    (hbs : 0 < batch_size) :
    EmbeddingGenerator.generate_embeddings_batch cache provider batch_size texts
      = texts.map E := by
  have hpeq : provider = fun ts => ts.map E := funext hp
  subst hpeq
  simp only [EmbeddingGenerator.generate_embeddings_batch]
  rw [processBatches_eq_zip E batch_size
    (EmbeddingGenerator.cacheSplit cache 0 texts).2.2.length _ _ (le_refl _)]
  have hperm :
      ((EmbeddingGenerator.cacheSplit cache 0 texts).1
        ++ (EmbeddingGenerator.cacheSplit cache 0 texts).2.1.zip
            ((EmbeddingGenerator.cacheSplit cache 0 texts).2.2.map E)).Perm
        ((List.enumFrom 0 texts).map (fun p => (p.1, E p.2))) :=
    cacheSplit_perm cache E hc texts 0
  have hms := List.mergeSort_perm
    ((EmbeddingGenerator.cacheSplit cache 0 texts).1
      ++ (EmbeddingGenerator.cacheSplit cache 0 texts).2.1.zip
          ((EmbeddingGenerator.cacheSplit cache 0 texts).2.2.map E))
    (fun x y : Nat × Emb => decide (x.1 ≤ y.1))
  have hsort := @List.sorted_mergeSort (Nat × Emb)
    (fun x y : Nat × Emb => decide (x.1 ≤ y.1))
    (fun a b c hab hbc => by
      simp only [decide_eq_true_eq] at *
      omega)
    (fun a b => by
      simp only [Bool.or_eq_true, decide_eq_true_eq]
      omega)
    ((EmbeddingGenerator.cacheSplit cache 0 texts).1
      ++ (EmbeddingGenerator.cacheSplit cache 0 texts).2.1.zip
          ((EmbeddingGenerator.cacheSplit cache 0 texts).2.2.map E))
  have heq := sorted_perm_canonical_eq _ _ (hms.trans hperm)
    (hsort.imp (fun h => by simpa using h)) (canonical_pairwise_lt E texts 0)
  rw [heq, List.map_map]
  calc (List.enumFrom 0 texts).map
        (Prod.snd ∘ fun p : Nat × Text => ((p.1, E p.2) : Nat × Emb))
      = ((List.enumFrom 0 texts).map Prod.snd).map E := by
        rw [List.map_map]; rfl
    _ = texts.map E := by rw [List.enumFrom_map_snd]

/-- C9 witness: batch size 2, a cache holding one of the five texts (with
a value consistent with the embedding function), and a pointwise
provider. -/
theorem c9_witness :
    (0 : Nat) < 2
    ∧ EmbeddingGenerator.generate_embeddings_batch
        (fun t => if t = "a".data then some ([1] : Emb) else none)
        (fun ts => ts.map (fun t => ([(t.length : ℚ)] : Emb)))
        2 ["x".data, "a".data, "yy".data, "zzz".data, "a".data]
      = ["x".data, "a".data, "yy".data, "zzz".data, "a".data].map
          (fun t => ([(t.length : ℚ)] : Emb)) := by
  refine ⟨by decide, c9_batch_order _ _ (fun t => ([(t.length : ℚ)] : Emb)) 2 _
    ?_ (fun _ => rfl) (by decide)⟩
  intro t e h
  by_cases ht : t = "a".data
  · subst ht
    rw [if_pos rfl] at h
    have he : e = [1] := (Option.some.inj h).symm
    subst he
    show ([(1 : ℚ)] : Emb) = [(("a".data.length : Nat) : ℚ)]
    norm_num
  · simp [ht] at h

/-! ## C10 — fusion aliasing and mutation -/

/-- Writing one store slot leaves other slots unchanged. -/
theorem deref_set_ne (st : ChunkStore) (i r : Nat) (v : RetrievedChunk)
    (h : i ≠ r) : deref (st.set i v) r = deref st r := by
  simp [deref, List.getD_eq_getElem?_getD, List.getElem?_set_ne h]

/-- Reading back a written slot. -/
theorem deref_set_self (st : ChunkStore) (i : Nat) (v : RetrievedChunk)
    (h : i < st.length) : deref (st.set i v) i = v := by
  simp [deref, List.getD_eq_getElem?_getD, List.getElem?_set_self h]

/-- `find?` returns the unique element satisfying the predicate. -/
theorem find?_eq_some_of_unique {α : Type} (p : α → Bool) :
    ∀ (l : List α) (a : α), a ∈ l → p a = true →
      (∀ b ∈ l, p b = true → b = a) → l.find? p = some a := by
  intro l
  induction l with
  | nil => intro a ha; simp at ha
  | cons h t ih =>
    intro a ha hpa huniq
    by_cases hph : p h = true
    · rw [List.find?_cons_of_pos _ hph, huniq h (List.mem_cons_self h t) hph]
    · rw [List.find?_cons_of_neg _ hph]
      have hat : a ∈ t := by
        rcases List.mem_cons.1 ha with rfl | hat
        · exact absurd hpa hph
        · exact hat
      exact ih a hat hpa (fun b hb hpb => huniq b (List.mem_cons_of_mem _ hb) hpb)

namespace HybridRetriever

/-- For an id drawn from either reference list, `chunk_map` resolves to a
reference whose stored chunk carries that id; the reference belongs to
one of the lists, with the BM25 list taking priority. -/
theorem chunkMapRef_spec (store : ChunkStore) (vrefs brefs : List Nat) (i : Nat)
    (h : i ∈ vrefs.map (fun r => (deref store r).chunk_id)
       ∨ i ∈ brefs.map (fun r => (deref store r).chunk_id)) :
    (deref store (chunkMapRef store vrefs brefs i)).chunk_id = i
    ∧ (chunkMapRef store vrefs brefs i ∈ vrefs
       ∨ chunkMapRef store vrefs brefs i ∈ brefs)
    ∧ (i ∈ brefs.map (fun r => (deref store r).chunk_id) →
        chunkMapRef store vrefs brefs i ∈ brefs) := by
  unfold chunkMapRef
  cases hfb : brefs.reverse.find? (fun r => (deref store r).chunk_id = i) with
  | some r =>
    have h1 : (deref store r).chunk_id = i := by simpa using List.find?_some hfb
    have h2 : r ∈ brefs := List.mem_reverse.1 (List.mem_of_find?_eq_some hfb)
    exact ⟨h1, Or.inr h2, fun _ => h2⟩
  | none =>
    have hnb : i ∉ brefs.map (fun r => (deref store r).chunk_id) := by
      intro hm
      obtain ⟨x, hx, hxi⟩ := List.mem_map.1 hm
      exact absurd (by simpa using hxi)
        (by simpa using List.find?_eq_none.1 hfb x (List.mem_reverse.2 hx))
    have hv : i ∈ vrefs.map (fun r => (deref store r).chunk_id) :=
      h.resolve_right hnb
    cases hfv : vrefs.reverse.find? (fun r => (deref store r).chunk_id = i) with
    | some r =>
      have h1 : (deref store r).chunk_id = i := by simpa using List.find?_some hfv
      have h2 : r ∈ vrefs := List.mem_reverse.1 (List.mem_of_find?_eq_some hfv)
      exact ⟨h1, Or.inl h2, fun hm => absurd hm hnb⟩
    | none =>
      exact absurd hv (by
        intro hm
        obtain ⟨x, hx, hxi⟩ := List.mem_map.1 hm
        exact absurd (by simpa using hxi)
          (by simpa using List.find?_eq_none.1 hfv x (List.mem_reverse.2 hx)))

/-- A slot no loop iteration writes to is unchanged by the whole loop. -/
theorem foldl_write_untouched (store : ChunkStore) (vrefs brefs : List Nat)
    (k : Nat) : ∀ (l : List Nat) (st : ChunkStore) (r : Nat),
    (∀ i ∈ l, chunkMapRef store vrefs brefs i ≠ r) →
    deref (l.foldl (rrfWriteStep store vrefs brefs k) st) r = deref st r := by
  intro l
  induction l with
  | nil => intro st r _; rfl
  | cons i l' ih =>
    intro st r hr
    simp only [List.foldl_cons]
    rw [ih _ r (fun j hj => hr j (List.mem_cons_of_mem _ hj))]
    exact deref_set_ne _ _ _ _ (hr i (List.mem_cons_self _ _))

/-- The loop writes each processed id's resolved slot with its RRF score
(on ids whose resolved slots are pairwise distinct). -/
theorem foldl_write_at (store : ChunkStore) (vrefs brefs : List Nat)
    (k : Nat) : ∀ (l : List Nat) (st : ChunkStore) (i : Nat),
    i ∈ l → l.Nodup →
    (∀ j ∈ l, chunkMapRef store vrefs brefs j = chunkMapRef store vrefs brefs i
      → j = i) →
    chunkMapRef store vrefs brefs i < st.length →
    deref (l.foldl (rrfWriteStep store vrefs brefs k) st)
        (chunkMapRef store vrefs brefs i)
      = { deref st (chunkMapRef store vrefs brefs i) with
          score := rrfScore (vrefs.map (deref store))
            (brefs.map (deref store)) k i } := by
  intro l
  induction l with
  | nil => intro st i hi; simp at hi
  | cons j l' ih =>
    intro st i hi hnd huniq hlen
    simp only [List.foldl_cons]
    rcases List.mem_cons.1 hi with rfl | hi'
    · rw [foldl_write_untouched store vrefs brefs k l' _ _ (fun j' hj' heq => ?_)]
      · exact deref_set_self _ _ _ hlen
      · have : j' = i := huniq j' (List.mem_cons_of_mem _ hj') heq
        subst this
        exact absurd hj' (List.nodup_cons.1 hnd).1
    · have hji : j ≠ i := fun he => (List.nodup_cons.1 hnd).1 (he ▸ hi')
      have hcne : chunkMapRef store vrefs brefs j
          ≠ chunkMapRef store vrefs brefs i :=
        fun he => hji (huniq j (List.mem_cons_self _ _) he)
      rw [ih _ i hi' (List.nodup_cons.1 hnd).2
        (fun j' hj' => huniq j' (List.mem_cons_of_mem _ hj'))
        (by rw [rrfWriteStep]; simpa using hlen)]
      rw [show deref (rrfWriteStep store vrefs brefs k st j)
          (chunkMapRef store vrefs brefs i)
        = deref st (chunkMapRef store vrefs brefs i) from
          deref_set_ne _ _ _ _ hcne]

/-- The loop never changes any field other than `score`, anywhere. -/
theorem foldl_write_nonScore (store : ChunkStore) (vrefs brefs : List Nat)
    (k : Nat) : ∀ (l : List Nat) (st : ChunkStore) (r : Nat),
    nonScore (deref (l.foldl (rrfWriteStep store vrefs brefs k) st) r)
      = nonScore (deref st r) := by
  intro l
  induction l with
  | nil => intro st r; rfl
  | cons i l' ih =>
    intro st r
    simp only [List.foldl_cons]
    rw [ih]
    by_cases hr : chunkMapRef store vrefs brefs i = r
    · subst hr
      by_cases hlen : chunkMapRef store vrefs brefs i < st.length
      · rw [show rrfWriteStep store vrefs brefs k st i
            = st.set (chunkMapRef store vrefs brefs i)
              { deref st (chunkMapRef store vrefs brefs i) with
                score := rrfScore (vrefs.map (deref store))
                  (brefs.map (deref store)) k i } from rfl,
          deref_set_self _ _ _ hlen]
        rfl
      · rw [show rrfWriteStep store vrefs brefs k st i
            = st.set (chunkMapRef store vrefs brefs i)
              { deref st (chunkMapRef store vrefs brefs i) with
                score := rrfScore (vrefs.map (deref store))
                  (brefs.map (deref store)) k i } from rfl]
        rw [List.set_eq_of_length_le (by omega)]
    · exact congrArg nonScore (deref_set_ne _ _ _ _ hr)

end HybridRetriever

/-- C10 counterexample.  Store two *distinct* objects sharing chunk id 5:
reference 0 (score 100) in the vector list, reference 1 (score 7) in the
BM25 list.  Fusion returns only the BM25 object and overwrites its score
with `rrf(5) = 1/60 + 1/60 = 1/30`; the vector-list object's score stays
100 ≠ 1/30, so the claim that the score fields of the caller's *vector*
list are mutated fails for a shared id. -/
theorem c10_counterexample :
    (HybridRetriever.rrfFusionStore sharedIdStore [0] [1] 60).1 = [1]
    ∧ (deref (HybridRetriever.rrfFusionStore sharedIdStore [0] [1] 60).2 0).score
        = 100
    ∧ HybridRetriever.rrfScore (List.map (deref sharedIdStore) [0])
        (List.map (deref sharedIdStore) [1]) 60 5 = 1/30
    ∧ (100 : ℚ) ≠ 1/30 := by
  refine ⟨?_, ?_, ?_, by norm_num⟩ <;>
    norm_num [HybridRetriever.rrfFusionStore, HybridRetriever.rrfWriteStep,
      deref, sharedIdStore, HybridRetriever.allChunkIds,
      HybridRetriever.rrfScore, HybridRetriever.rankFrom,
      HybridRetriever.chunkMapRef, List.mergeSort, List.splitInTwo,
      List.splitAt_eq, List.merge, List.find?, List.dedup_cons_of_mem,
      List.dedup_cons_of_not_mem, List.getD_eq_getElem?_getD]

/-- C10 amended: `reciprocal_rank_fusion` returns the very same objects
it received (for an id in both lists, the BM25 object), overwrites the
`score` field of each returned object in place with its RRF value, and
changes no other field of any stored object.  The mutation is visible
through the caller's lists for every BM25-list object and for every
vector-list object whose id is absent from the BM25 list; a vector-list
object whose id also appears in the BM25 list is not returned and is
left entirely unchanged. -/
theorem c10_amended (store : ChunkStore) (vrefs brefs : List Nat) (k : Nat)
    (hv : ∀ r ∈ vrefs, r < store.length)
    (hb : ∀ r ∈ brefs, r < store.length)
    (hnv : (vrefs.map (fun r => (deref store r).chunk_id)).Nodup)
    (hnb : (brefs.map (fun r => (deref store r).chunk_id)).Nodup) :
    (∀ r ∈ (HybridRetriever.rrfFusionStore store vrefs brefs k).1,
        r ∈ vrefs ∨ r ∈ brefs)
    ∧ (∀ r ∈ (HybridRetriever.rrfFusionStore store vrefs brefs k).1,
        (deref store r).chunk_id
            ∈ brefs.map (fun x => (deref store x).chunk_id)
          → r ∈ brefs)
    ∧ (∀ r ∈ (HybridRetriever.rrfFusionStore store vrefs brefs k).1,
        (deref (HybridRetriever.rrfFusionStore store vrefs brefs k).2 r).score
          = HybridRetriever.rrfScore (vrefs.map (deref store))
              (brefs.map (deref store)) k ((deref store r).chunk_id))
    ∧ (∀ r, nonScore
          (deref (HybridRetriever.rrfFusionStore store vrefs brefs k).2 r)
        = nonScore (deref store r))
    ∧ (∀ r ∈ brefs,
        deref (HybridRetriever.rrfFusionStore store vrefs brefs k).2 r
          = { deref store r with
              score := HybridRetriever.rrfScore (vrefs.map (deref store))
                (brefs.map (deref store)) k ((deref store r).chunk_id) })
    ∧ (∀ r ∈ vrefs,
        (deref store r).chunk_id
            ∉ brefs.map (fun x => (deref store x).chunk_id) →
        deref (HybridRetriever.rrfFusionStore store vrefs brefs k).2 r
          = { deref store r with
              score := HybridRetriever.rrfScore (vrefs.map (deref store))
                (brefs.map (deref store)) k ((deref store r).chunk_id) })
    ∧ (∀ r ∈ vrefs, r ∉ brefs →
        (deref store r).chunk_id
            ∈ brefs.map (fun x => (deref store x).chunk_id) →
        deref (HybridRetriever.rrfFusionStore store vrefs brefs k).2 r
          = deref store r) := by
  have hvids : (vrefs.map (deref store)).map (fun c => c.chunk_id)
      = vrefs.map (fun r => (deref store r).chunk_id) := by
    simp [List.map_map, Function.comp]
  have hbids : (brefs.map (deref store)).map (fun c => c.chunk_id)
      = brefs.map (fun r => (deref store r).chunk_id) := by
    simp [List.map_map, Function.comp]
  simp only [HybridRetriever.rrfFusionStore]
  set vres := vrefs.map (deref store) with hvres
  set bres := brefs.map (deref store) with hbres
  set sortedIds := (HybridRetriever.allChunkIds vres bres).mergeSort
    (fun a b => HybridRetriever.rrfScore vres bres k b
      ≤ HybridRetriever.rrfScore vres bres k a) with hS
  have hmem : ∀ i, i ∈ sortedIds ↔
      (i ∈ vrefs.map (fun r => (deref store r).chunk_id)
       ∨ i ∈ brefs.map (fun r => (deref store r).chunk_id)) := by
    intro i
    rw [hS, (List.mergeSort_perm _ _).mem_iff]
    simp [HybridRetriever.allChunkIds, List.mem_dedup, hvids, hbids]
  have hnd : sortedIds.Nodup := by
    rw [hS]
    exact ((List.mergeSort_perm _ _).nodup_iff).2 (List.nodup_dedup _)
  have hcmr : ∀ i ∈ sortedIds,
      (deref store (HybridRetriever.chunkMapRef store vrefs brefs i)).chunk_id = i
      ∧ (HybridRetriever.chunkMapRef store vrefs brefs i ∈ vrefs
         ∨ HybridRetriever.chunkMapRef store vrefs brefs i ∈ brefs)
      ∧ (i ∈ brefs.map (fun x => (deref store x).chunk_id) →
          HybridRetriever.chunkMapRef store vrefs brefs i ∈ brefs) :=
    fun i hi => HybridRetriever.chunkMapRef_spec store vrefs brefs i ((hmem i).1 hi)
  have huniq : ∀ i ∈ sortedIds, ∀ j ∈ sortedIds,
      HybridRetriever.chunkMapRef store vrefs brefs j
        = HybridRetriever.chunkMapRef store vrefs brefs i → j = i := by
    intro i hi j hj he
    rw [← (hcmr j hj).1, ← (hcmr i hi).1, he]
  have hlen : ∀ i ∈ sortedIds,
      HybridRetriever.chunkMapRef store vrefs brefs i < store.length := by
    intro i hi
    rcases (hcmr i hi).2.1 with h | h
    · exact hv _ h
    · exact hb _ h
  refine ⟨?_, ?_, ?_, ?_, ?_, ?_, ?_⟩
  · intro r hr
    obtain ⟨i, hi, rfl⟩ := List.mem_map.1 hr
    exact (hcmr i hi).2.1
  · intro r hr hshared
    obtain ⟨i, hi, rfl⟩ := List.mem_map.1 hr
    rw [(hcmr i hi).1] at hshared
    exact (hcmr i hi).2.2 hshared
  · intro r hr
    obtain ⟨i, hi, rfl⟩ := List.mem_map.1 hr
    rw [(hcmr i hi).1]
    rw [HybridRetriever.foldl_write_at store vrefs brefs k sortedIds store i hi
      hnd (fun j hj => huniq i hi j hj) (hlen i hi)]
  · intro r
    exact HybridRetriever.foldl_write_nonScore store vrefs brefs k sortedIds store r
  · intro r hr
    have hidb : (deref store r).chunk_id
        ∈ brefs.map (fun x => (deref store x).chunk_id) :=
      List.mem_map.2 ⟨r, hr, rfl⟩
    have hi : (deref store r).chunk_id ∈ sortedIds := (hmem _).2 (Or.inr hidb)
    have hcr : HybridRetriever.chunkMapRef store vrefs brefs
        ((deref store r).chunk_id) = r := by
      unfold HybridRetriever.chunkMapRef
      rw [find?_eq_some_of_unique _ brefs.reverse r (List.mem_reverse.2 hr)
        (by simp) (fun b hbm hpb => List.inj_on_of_nodup_map hnb
          (List.mem_reverse.1 hbm) hr (by simpa using hpb))]
    have := HybridRetriever.foldl_write_at store vrefs brefs k sortedIds store
      ((deref store r).chunk_id) hi hnd
      (fun j hj => huniq _ hi j hj) (by rw [hcr]; exact hb r hr)
    rw [hcr] at this
    exact this
  · intro r hr hnshared
    have hidv : (deref store r).chunk_id
        ∈ vrefs.map (fun x => (deref store x).chunk_id) :=
      List.mem_map.2 ⟨r, hr, rfl⟩
    have hi : (deref store r).chunk_id ∈ sortedIds := (hmem _).2 (Or.inl hidv)
    have hcr : HybridRetriever.chunkMapRef store vrefs brefs
        ((deref store r).chunk_id) = r := by
      unfold HybridRetriever.chunkMapRef
      rw [List.find?_eq_none.2 (fun x hx => by
        simp only [decide_eq_true_eq]
        intro hxe
        exact hnshared (List.mem_map.2 ⟨x, List.mem_reverse.1 hx, hxe⟩))]
      rw [find?_eq_some_of_unique _ vrefs.reverse r (List.mem_reverse.2 hr)
        (by simp) (fun b hbm hpb => List.inj_on_of_nodup_map hnv
          (List.mem_reverse.1 hbm) hr (by simpa using hpb))]
    have := HybridRetriever.foldl_write_at store vrefs brefs k sortedIds store
      ((deref store r).chunk_id) hi hnd
      (fun j hj => huniq _ hi j hj) (by rw [hcr]; exact hv r hr)
    rw [hcr] at this
    exact this
  · intro r hr hrb hshared
    refine HybridRetriever.foldl_write_untouched store vrefs brefs k sortedIds
      store r (fun i hi he => ?_)
    have hidr : i = (deref store r).chunk_id := by rw [← (hcmr i hi).1, he]
    have : HybridRetriever.chunkMapRef store vrefs brefs i ∈ brefs :=
      (hcmr i hi).2.2 (hidr ▸ hshared)
    rw [he] at this
    exact hrb this

/-- C10 amended, witness: the two-object shared-id store with valid
references and distinct per-list ids. -/
theorem c10_witness :
    ((∀ r ∈ ([0] : List Nat), r < sharedIdStore.length)
      ∧ (∀ r ∈ ([1] : List Nat), r < sharedIdStore.length))
    ∧ ∀ r, nonScore
        (deref (HybridRetriever.rrfFusionStore sharedIdStore [0] [1] 60).2 r)
      = nonScore (deref sharedIdStore r) :=
  ⟨⟨by decide, by decide⟩,
    (c10_amended sharedIdStore [0] [1] 60 (by decide) (by decide)
      (by decide) (by decide)).2.2.2.1⟩
